import Mathlib

/-!
Verification of the RAG engine (`rag_engine.py`) of the farmacia-popular
chatbot repository.  The Python source is shallowly embedded: every pure
computation becomes a Lean function over `Nat`/`Int`/`List Char`, stateful
code becomes explicit state passing over an `EngineState` record, Python
exceptions become `Except String` values, and the external ML models
(sentence embedder, cross-encoder reranker, extractive QA pipeline) are
passed in as function-valued fields of a `ModelEnv` record, matching the
spec's view of them as opaque scoring functions.
-/

namespace RagFarmacia

/-- A loaded document: `{'title': ..., 'content': ...}` from `_load_documents`. -/
structure Document where
  title : String
  content : String
deriving DecidableEq, Repr

/-- A chunk record `{'id': ..., 'title': ..., 'text': ...}` from `_chunk_documents`. -/
structure Chunk where
  id : Nat
  title : String
  text : String
deriving DecidableEq, Repr

/-- Constructor configuration of `RAGEngine.__init__` (the fields consulted by the
embedded operations). -/
structure RAGConfig where
  knowledge_base_dir : String := "knowledge_base"
  model_name : String := "sentence-transformers/all-mpnet-base-v2"
  qa_model_name : String := "deepset/roberta-base-squad2"
  reranker_model_name : String := "cross-encoder/ms-marco-MiniLM-L-6-v2"
  chunk_chars : Nat := 700
  chunk_overlap : Nat := 80
  batch_size : Nat := 32
  top_k : Nat := 5
  pre_k : Nat := 15
  cache_dir : String := "cache"
deriving Repr

/-! ## Chunker (`_chunk_documents`)

The inner `while start < len(para)` loop of `_chunk_documents` is embedded with
an explicit fuel argument; `none` means the fuel was exhausted, so a return of
`none` for every fuel amount is exactly divergence of the Python loop.
The loop body is transcribed literally: `end = min(len(para), start + chunk_chars)`,
emit `para[start:end]`, stop when `end == len(para)`, otherwise
`start = max(0, end - chunk_overlap)` (which is truncated subtraction on `Nat`). -/

/-- The window loop of `_chunk_documents` for one over-long paragraph,
fuel-indexed.  Returns the list of window texts. -/
def chunkParaGo (cc co : Nat) (para : List Char) : Nat → Nat → Option (List (List Char))
  | 0, _ => none
  | fuel + 1, start =>
    if start < para.length then
      let e := min para.length (start + cc)
      let text := (para.drop start).take (e - start)
      if e = para.length then
        some [text]
      else
        match chunkParaGo cc co para fuel (e - co) with
        | some rest => some (text :: rest)
        | none => none
    else
      some []

/-- Windows of one paragraph: a short paragraph is one chunk, an over-long one
goes through the window loop (`none` = the loop diverges). -/
def chunkPara (cc co : Nat) (para : List Char) (fuel : Nat) : Option (List (List Char)) :=
  if para.length ≤ cc then some [para] else chunkParaGo cc co para fuel 0

/-- The paragraph split of `_chunk_documents`: split content on newlines,
strip, drop empties.  Stripping is `str.strip()` on ASCII whitespace. -/
def isSpc (c : Char) : Bool :=
  c = ' ' ∨ c = '\t' ∨ c = '\n' ∨ c = '\r' ∨ c = '\x0b' ∨ c = '\x0c'

/-- `str.strip()` on a character list. -/
def stripChars (l : List Char) : List Char :=
  ((l.dropWhile isSpc).reverse.dropWhile isSpc).reverse

/-- `content.split('\n')` followed by per-paragraph strip and the truthiness
filter of `_chunk_documents` line 93. -/
def paragraphsOf (content : String) : List (List Char) :=
  ((content.data.splitOn '\n').map stripChars).filter (fun p => p ≠ [])

/-- Theorem C1 helper: the successor of a window start in the loop. -/
def nextStart (cc co paraLen start : Nat) : Nat :=
  min paraLen (start + cc) - co

/-- C1: with `chunk_chars = 700`, `chunk_overlap = 700` and a 701-character
paragraph, the window loop of `_chunk_documents` never terminates: for every
amount of fuel the loop is still running (the window start never advances past
0, so the "strictly increasing start positions" the spec demands also fails). -/
theorem c1_chunk_loop_diverges :
    ∀ fuel : Nat, chunkParaGo 700 700 (List.replicate 701 'a') fuel 0 = none := by
  intro fuel
  induction fuel with
  | zero => rfl
  | succ n ih =>
    have hlen : (List.replicate 701 'a').length = 701 := List.length_replicate 701 'a'
    unfold chunkParaGo
    rw [hlen]
    norm_num
    rw [ih]

/-! ## Fingerprinter (`_compute_fingerprint`)

`_compute_fingerprint` feeds `model_name`, `str(chunk_chars)`,
`str(chunk_overlap)` and, for every corpus file in sorted filename order,
`basename`, `str(st_size)`, `str(int(st_mtime))` into SHA-256 and keeps the
first 16 hex characters of the digest.  The byte stream handed to the hash is
embedded exactly (`fingerprintMsg`); the hash itself is an external library
collaborator and is embedded as a fixed-width stand-in (`sha256hexRaw`): no
theorem below depends on particular digest values, only on the digest having
a fixed 64-hex-character width. -/

/-- The decimal digit characters used by Python `str(...)` on integers. -/
def digitChar (d : Nat) : Char :=
  match d with
  | 0 => '0' | 1 => '1' | 2 => '2' | 3 => '3' | 4 => '4'
  | 5 => '5' | 6 => '6' | 7 => '7' | 8 => '8' | 9 => '9'
  | _ => '*'

theorem digitChar_inj {a b : Nat} (ha : a < 10) (hb : b < 10)
    (h : digitChar a = digitChar b) : a = b := by
  interval_cases a <;> interval_cases b <;> revert h <;> decide

/-- Python `str(n)` for a natural number: big-endian decimal digits. -/
def natStr (n : Nat) : List Char :=
  if n = 0 then ['0'] else (Nat.digits 10 n).reverse.map digitChar

theorem map_digitChar_inj : ∀ {l1 l2 : List Nat}, (∀ d ∈ l1, d < 10) →
    (∀ d ∈ l2, d < 10) → l1.map digitChar = l2.map digitChar → l1 = l2
  | [], [], _, _, _ => rfl
  | [], _ :: _, _, _, h => by simp at h
  | _ :: _, [], _, _, h => by simp at h
  | a :: t1, b :: t2, h1, h2, h => by
    simp only [List.map_cons, List.cons.injEq] at h
    have ha := h1 a (List.mem_cons_self a t1)
    have hb := h2 b (List.mem_cons_self b t2)
    have hab := digitChar_inj ha hb h.1
    have ht := map_digitChar_inj (fun d hd => h1 d (List.mem_cons_of_mem a hd))
      (fun d hd => h2 d (List.mem_cons_of_mem b hd)) h.2
    rw [hab, ht]

theorem natStr_inj {a b : Nat} (h : natStr a = natStr b) : a = b := by
  unfold natStr at h
  by_cases ha : a = 0 <;> by_cases hb : b = 0
  · omega
  · exfalso
    rw [if_pos ha, if_neg hb] at h
    have hmap : ((Nat.digits 10 b).reverse).map digitChar = [(0 : Nat)].map digitChar := by
      simpa [digitChar] using h.symm
    have h0 : (Nat.digits 10 b).reverse = [0] :=
      map_digitChar_inj (fun d hd => by
          have := List.mem_reverse.mp hd
          exact Nat.digits_lt_base (by norm_num) this)
        (by intro d hd; simp at hd; omega) hmap
    have hdig : Nat.digits 10 b = [0] := by
      have := congrArg List.reverse h0
      simpa using this
    have : b = 0 := by
      have := congrArg (Nat.ofDigits 10) hdig
      rwa [Nat.ofDigits_digits] at this
    exact hb this
  · exfalso
    rw [if_neg ha, if_pos hb] at h
    have hmap : ((Nat.digits 10 a).reverse).map digitChar = [(0 : Nat)].map digitChar := by
      simpa [digitChar] using h
    have h0 : (Nat.digits 10 a).reverse = [0] :=
      map_digitChar_inj (fun d hd => by
          have := List.mem_reverse.mp hd
          exact Nat.digits_lt_base (by norm_num) this)
        (by intro d hd; simp at hd; omega) hmap
    have hdig : Nat.digits 10 a = [0] := by
      have := congrArg List.reverse h0
      simpa using this
    have : a = 0 := by
      have := congrArg (Nat.ofDigits 10) hdig
      rwa [Nat.ofDigits_digits] at this
    exact ha this
  · rw [if_neg ha, if_neg hb] at h
    have hrev := map_digitChar_inj
      (fun d hd => Nat.digits_lt_base (by norm_num) (List.mem_reverse.mp hd))
      (fun d hd => Nat.digits_lt_base (by norm_num) (List.mem_reverse.mp hd)) h
    have hd : Nat.digits 10 a = Nat.digits 10 b := by
      have := congrArg List.reverse hrev
      simpa using this
    have := congrArg (Nat.ofDigits 10) hd
    rwa [Nat.ofDigits_digits, Nat.ofDigits_digits] at this

theorem natStr_mem_ne_dash {n : Nat} : ∀ c ∈ natStr n, c ≠ '-' := by
  intro c hc
  unfold natStr at hc
  by_cases hn : n = 0
  · rw [if_pos hn] at hc
    simp at hc
    rw [hc]; decide
  · rw [if_neg hn] at hc
    obtain ⟨d, hd, hdc⟩ := List.mem_map.mp hc
    have : d < 10 := Nat.digits_lt_base (by norm_num) (List.mem_reverse.mp hd)
    rw [← hdc]
    interval_cases d <;> decide

/-- Python `str(i)` for an `int` (`int(st_mtime)` may be negative). -/
def intStr (i : Int) : List Char :=
  if i < 0 then '-' :: natStr i.natAbs else natStr i.toNat

theorem natStr_ne_nil (n : Nat) : natStr n ≠ [] := by
  unfold natStr
  by_cases hn : n = 0
  · rw [if_pos hn]; simp
  · rw [if_neg hn]
    simp [Nat.digits_ne_nil_iff_ne_zero.mpr hn]

theorem intStr_inj {i j : Int} (h : intStr i = intStr j) : i = j := by
  unfold intStr at h
  by_cases hi : i < 0 <;> by_cases hj : j < 0
  · rw [if_pos hi, if_pos hj] at h
    simp only [List.cons.injEq, true_and] at h
    have := natStr_inj h
    omega
  · exfalso
    rw [if_pos hi, if_neg hj] at h
    have : '-' ∈ natStr j.toNat := h ▸ List.mem_cons_self '-' (natStr i.natAbs)
    exact natStr_mem_ne_dash '-' this rfl
  · exfalso
    rw [if_neg hi, if_pos hj] at h
    have : '-' ∈ natStr i.toNat := h ▸ List.mem_cons_self '-' (natStr j.natAbs)
    exact natStr_mem_ne_dash '-' this rfl
  · rw [if_neg hi, if_neg hj] at h
    have := natStr_inj h
    omega

/-- The `os.stat` data hashed per corpus file: basename, byte size,
truncated-to-second modification time. -/
structure FileStat where
  name : String
  size : Nat
  mtime : Int
deriving DecidableEq, Repr

/-- The bytes one file contributes to the hash:
`basename ++ str(st_size) ++ str(int(st_mtime))`. -/
def fileEntry (f : FileStat) : List Char :=
  f.name.data ++ natStr f.size ++ intStr f.mtime

/-- `sorted(glob.glob(...))`: insertion sort of the corpus files by filename. -/
def insertFile (x : FileStat) : List FileStat → List FileStat
  | [] => [x]
  | y :: t => if x.name ≤ y.name then x :: y :: t else y :: insertFile x t

/-- Sort the corpus files by filename. -/
def sortFiles : List FileStat → List FileStat
  | [] => []
  | x :: t => insertFile x (sortFiles t)

/-- The byte stream `_compute_fingerprint` feeds to the hash:
model name, `str(chunk_chars)`, `str(chunk_overlap)`, then the per-file
entries in sorted filename order. -/
def fingerprintMsg (mn : String) (cc co : Nat) (files : List FileStat) : List Char :=
  mn.data ++ natStr cc ++ natStr co ++ ((sortFiles files).map fileEntry).flatten

/-- Big-endian base-16 expansion, fixed width `k` (low nibbles first). -/
def natToNibbles : Nat → Nat → List (Fin 16)
  | 0, _ => []
  | k + 1, n => ⟨n % 16, Nat.mod_lt n (by norm_num)⟩ :: natToNibbles k (n / 16)

theorem length_natToNibbles (k n : Nat) : (natToNibbles k n).length = k := by
  induction k generalizing n with
  | zero => rfl
  | succ m ih => simp [natToNibbles, ih]

/-- A rolling polynomial accumulator, reduced to 256 bits. -/
def polyAcc (m : List Char) : Nat :=
  m.foldl (fun a c => (a * 1000003 + c.toNat + 1) % 2 ^ 256) 0

/-- Modelled from the spec: stand-in for the external `hashlib.sha256`
hexdigest (a library collaborator, not code of this repository; the spec only
requires a cryptographic-strength fixed-width digest).  Returns the 64 hex
digits of the digest as nibble values; no theorem depends on the particular
values, only on the fixed width. -/
def sha256hexRaw (m : List Char) : List (Fin 16) :=
  natToNibbles 64 (polyAcc m)

/-- Hex characters of the digest. -/
def hexChar (d : Fin 16) : Char :=
  "0123456789abcdef".data.getD d.val '0'

/-- `hashlib.sha256(...).hexdigest()` stand-in: 64 hex characters. -/
def sha256hex (m : List Char) : List Char :=
  (sha256hexRaw m).map hexChar

/-- `_compute_fingerprint`: hash the byte stream, keep the first 16 hex
characters (`m.hexdigest()[:16]`). -/
def computeFingerprint (cfg : RAGConfig) (files : List FileStat) : List Char :=
  (sha256hex (fingerprintMsg cfg.model_name cfg.chunk_chars cfg.chunk_overlap files)).take 16

/-- Value of a nibble list, low nibble first; injective at fixed length. -/
def nibblesToNat : List (Fin 16) → Nat
  | [] => 0
  | d :: t => d.val + 16 * nibblesToNat t

theorem nibblesToNat_lt : ∀ l : List (Fin 16), nibblesToNat l < 16 ^ l.length
  | [] => by simp [nibblesToNat]
  | d :: t => by
    have ih := nibblesToNat_lt t
    have hd := d.isLt
    simp only [nibblesToNat, List.length_cons, pow_succ]
    omega

theorem nibblesToNat_inj : ∀ {l1 l2 : List (Fin 16)}, l1.length = l2.length →
    nibblesToNat l1 = nibblesToNat l2 → l1 = l2
  | [], [], _, _ => rfl
  | a :: t1, b :: t2, hl, h => by
    simp only [List.length_cons] at hl
    have ha := a.isLt
    have hb := b.isLt
    simp only [nibblesToNat] at h
    have hab : a.val = b.val := by omega
    have ht : nibblesToNat t1 = nibblesToNat t2 := by omega
    have : t1 = t2 := nibblesToNat_inj (by simpa using hl) ht
    rw [Fin.ext hab, this]

theorem sortFiles_sorted_id : ∀ {l : List FileStat},
    l.Pairwise (fun f g => f.name ≤ g.name) → sortFiles l = l := by
  intro l h
  induction l with
  | nil => rfl
  | cons x t ih =>
    rw [List.pairwise_cons] at h
    show insertFile x (sortFiles t) = x :: t
    rw [ih h.2]
    cases t with
    | nil => rfl
    | cons y t2 =>
      show (if x.name ≤ y.name then x :: y :: t2 else y :: insertFile x t2) = x :: y :: t2
      rw [if_pos (h.1 y (List.mem_cons_self y t2))]

theorem length_sha256hexRaw (m : List Char) : (sha256hexRaw m).length = 64 :=
  length_natToNibbles 64 (polyAcc m)

attribute [irreducible] sha256hexRaw

/-- `_compute_fingerprint` in terms of the raw digest nibbles. -/
theorem computeFingerprint_eq_raw (cfg : RAGConfig) (files : List FileStat) :
    computeFingerprint cfg files =
      ((sha256hexRaw (fingerprintMsg cfg.model_name cfg.chunk_chars cfg.chunk_overlap
        files)).take 16).map hexChar := by
  simp [computeFingerprint, sha256hex, List.map_take]

/-- Pigeonhole: any 16-character truncation of the fixed-width digest collides
on some pair of distinct inputs, whatever the hashed messages are. -/
theorem truncatedDigestCollision (g : Nat → List Char) :
    ∃ x y : Nat, x ≠ y ∧ (sha256hex (g x)).take 16 = (sha256hex (g y)).take 16 := by
  have hlen : ∀ s, ((sha256hexRaw (g s)).take 16).length = 16 := by
    intro s
    rw [List.length_take, length_sha256hexRaw]
    norm_num
  have hb : ∀ s, nibblesToNat ((sha256hexRaw (g s)).take 16) < 16 ^ 16 := by
    intro s
    have := nibblesToNat_lt ((sha256hexRaw (g s)).take 16)
    rwa [hlen s] at this
  obtain ⟨x, y, hxy, hF⟩ := Finite.exists_ne_map_eq_of_infinite
    (fun s : Nat => (⟨nibblesToNat ((sha256hexRaw (g s)).take 16), hb s⟩ : Fin (16 ^ 16)))
  have hv : nibblesToNat ((sha256hexRaw (g x)).take 16) =
      nibblesToNat ((sha256hexRaw (g y)).take 16) := congrArg Fin.val hF
  have hraw := nibblesToNat_inj (by rw [hlen x, hlen y]) hv
  refine ⟨x, y, hxy, ?_⟩
  unfold sha256hex
  rw [← List.map_take, ← List.map_take, hraw]

/-- C7 counterexample (negation of the claim's sensitivity half): the
fingerprint is a 16-hex-character truncation of a digest, hence a map from
infinitely many possible inputs into finitely many digests; by pigeonhole two
corpora that differ only in one file's byte size share the fingerprint.  The
argument uses nothing about the hash stand-in beyond its fixed 64-character
width, so it applies verbatim to the real truncated SHA-256. -/
theorem c7_counterexample :
    ∃ s1 s2 : Nat, s1 ≠ s2 ∧
      computeFingerprint {} [⟨"a.txt", s1, 0⟩] = computeFingerprint {} [⟨"a.txt", s2, 0⟩] := by
  obtain ⟨x, y, hxy, h⟩ := truncatedDigestCollision
    (fun s => fingerprintMsg ({} : RAGConfig).model_name ({} : RAGConfig).chunk_chars
      ({} : RAGConfig).chunk_overlap [⟨"a.txt", s, 0⟩])
  exact ⟨x, y, hxy, h⟩

/-- C7 amended: the fingerprint is a deterministic pure function of exactly the
embedding model name, chunk size, chunk overlap and the sorted corpus file
stats (identical inputs reproduce it, other configuration fields are ignored),
it is 16 characters long, and changing any single one of those inputs (the
model name, chunk size, chunk overlap, or one sorted file's byte size or
truncated modification time) changes the byte stream fed to the hash — so the
digest changes whenever the truncated hash does not collide (by
`c7_counterexample` such collisions are unavoidable in principle). -/
theorem c7_fingerprint_amended :
    (∀ cfg cfg' : RAGConfig, ∀ files : List FileStat,
        cfg.model_name = cfg'.model_name → cfg.chunk_chars = cfg'.chunk_chars →
        cfg.chunk_overlap = cfg'.chunk_overlap →
        computeFingerprint cfg files = computeFingerprint cfg' files)
    ∧ (∀ (cfg : RAGConfig) (files : List FileStat),
        (computeFingerprint cfg files).length = 16)
    ∧ (∀ (mn mn' : String) (cc co : Nat) (files : List FileStat), mn ≠ mn' →
        fingerprintMsg mn cc co files ≠ fingerprintMsg mn' cc co files)
    ∧ (∀ (mn : String) (cc cc' co : Nat) (files : List FileStat), cc ≠ cc' →
        fingerprintMsg mn cc co files ≠ fingerprintMsg mn cc' co files)
    ∧ (∀ (mn : String) (cc co co' : Nat) (files : List FileStat), co ≠ co' →
        fingerprintMsg mn cc co files ≠ fingerprintMsg mn cc co' files)
    ∧ (∀ (mn : String) (cc co : Nat) (pre post : List FileStat) (nm : String)
        (sz sz' : Nat) (mt : Int), sz ≠ sz' →
        (pre ++ ⟨nm, sz, mt⟩ :: post).Pairwise (fun f g => f.name ≤ g.name) →
        (pre ++ ⟨nm, sz', mt⟩ :: post).Pairwise (fun f g => f.name ≤ g.name) →
        fingerprintMsg mn cc co (pre ++ ⟨nm, sz, mt⟩ :: post) ≠
          fingerprintMsg mn cc co (pre ++ ⟨nm, sz', mt⟩ :: post))
    ∧ (∀ (mn : String) (cc co : Nat) (pre post : List FileStat) (nm : String)
        (sz : Nat) (mt mt' : Int), mt ≠ mt' →
        (pre ++ ⟨nm, sz, mt⟩ :: post).Pairwise (fun f g => f.name ≤ g.name) →
        (pre ++ ⟨nm, sz, mt'⟩ :: post).Pairwise (fun f g => f.name ≤ g.name) →
        fingerprintMsg mn cc co (pre ++ ⟨nm, sz, mt⟩ :: post) ≠
          fingerprintMsg mn cc co (pre ++ ⟨nm, sz, mt'⟩ :: post)) := by
  refine ⟨?_, ?_, ?_, ?_, ?_, ?_, ?_⟩
  · intro cfg cfg' files h1 h2 h3
    unfold computeFingerprint
    rw [h1, h2, h3]
  · intro cfg files
    rw [computeFingerprint_eq_raw, List.length_map, List.length_take, length_sha256hexRaw]
    norm_num
  · intro mn mn' cc co files hne h
    unfold fingerprintMsg at h
    have h1 := List.append_cancel_right h
    have h2 := List.append_cancel_right h1
    have h3 := List.append_cancel_right h2
    apply hne
    cases mn with
    | mk l =>
      cases mn' with
      | mk l2 => exact congrArg String.mk h3
  · intro mn cc cc' co files hne h
    unfold fingerprintMsg at h
    have h1 := List.append_cancel_right h
    have h2 := List.append_cancel_right h1
    have h3 := List.append_cancel_left h2
    exact hne (natStr_inj h3)
  · intro mn cc co co' files hne h
    unfold fingerprintMsg at h
    have h1 := List.append_cancel_right h
    have h2 := List.append_cancel_left h1
    exact hne (natStr_inj h2)
  · intro mn cc co pre post nm sz sz' mt hne hs1 hs2 h
    unfold fingerprintMsg at h
    rw [sortFiles_sorted_id hs1, sortFiles_sorted_id hs2] at h
    simp only [List.map_append, List.flatten_append, List.map_cons, List.flatten_cons,
      fileEntry, List.append_assoc] at h
    have h1 := List.append_cancel_left h
    have h2 := List.append_cancel_left h1
    have h3 := List.append_cancel_left h2
    have h4 := List.append_cancel_left h3
    have h5 := List.append_cancel_left h4
    have h6 := List.append_cancel_right h5
    exact hne (natStr_inj h6)
  · intro mn cc co pre post nm sz mt mt' hne hs1 hs2 h
    unfold fingerprintMsg at h
    rw [sortFiles_sorted_id hs1, sortFiles_sorted_id hs2] at h
    simp only [List.map_append, List.flatten_append, List.map_cons, List.flatten_cons,
      fileEntry, List.append_assoc] at h
    have h1 := List.append_cancel_left h
    have h2 := List.append_cancel_left h1
    have h3 := List.append_cancel_left h2
    have h4 := List.append_cancel_left h3
    have h5 := List.append_cancel_left h4
    have h6 := List.append_cancel_left h5
    have h7 := List.append_cancel_right h6
    exact hne (intStr_inj h7)

/-- Witness for `c7_fingerprint_amended` at concrete inputs. -/
theorem c7_witness :
    (computeFingerprint {} [⟨"a.txt", 3, 5⟩] =
      computeFingerprint { top_k := 99, cache_dir := "other" } [⟨"a.txt", 3, 5⟩])
    ∧ fingerprintMsg "m" 700 80 [] ≠ fingerprintMsg "n" 700 80 []
    ∧ fingerprintMsg "m" 700 80 [] ≠ fingerprintMsg "m" 701 80 []
    ∧ fingerprintMsg "m" 700 80 [] ≠ fingerprintMsg "m" 700 81 []
    ∧ fingerprintMsg "m" 700 80 [⟨"a.txt", 3, 5⟩] ≠ fingerprintMsg "m" 700 80 [⟨"a.txt", 4, 5⟩]
    ∧ fingerprintMsg "m" 700 80 [⟨"a.txt", 3, 5⟩] ≠ fingerprintMsg "m" 700 80 [⟨"a.txt", 3, 6⟩] :=
  ⟨c7_fingerprint_amended.1 _ _ _ rfl rfl rfl,
   c7_fingerprint_amended.2.2.1 "m" "n" 700 80 [] (by decide),
   c7_fingerprint_amended.2.2.2.1 "m" 700 701 80 [] (by decide),
   c7_fingerprint_amended.2.2.2.2.1 "m" 700 80 81 [] (by decide),
   c7_fingerprint_amended.2.2.2.2.2.1 "m" 700 80 [] [] "a.txt" 3 4 5 (by decide)
     (by simp) (by simp),
   c7_fingerprint_amended.2.2.2.2.2.2 "m" 700 80 [] [] "a.txt" 3 5 6 (by decide)
     (by simp) (by simp)⟩

/-! ## Cache Store (`_load_cache`)

`_load_cache` returns `True` (a hit) only when both cache files exist, the
chunk-list file parses (`json.load`) to a list, the parsed chunk count equals
the freshly computed chunk count, and `np.load` succeeds on the embedding
file.  Files on disk are embedded as `Option` fields (`none` = file absent),
parse/load outcomes as a nested `Option` (`none` = the call raised or the
JSON value is not a list); every raise is caught by the method's own `try`
and turned into a miss. -/

structure CacheDisk where
  chunksFile : Option (Option (List Chunk))
  embFile : Option (Option (List (List Int)))
deriving Repr

/-- `_load_cache`: `some (chunks, embeddings)` is a hit (the method returned
`True` after assigning `self.chunks` and `self.embeddings`), `none` a miss. -/
def loadCache (d : CacheDisk) (freshChunks : List Chunk) :
    Option (List Chunk × List (List Int)) :=
  match d.chunksFile, d.embFile with
  | some parsed, some loaded =>
    match parsed with
    | some cached =>
      if cached.length = freshChunks.length then
        match loaded with
        | some emb => some (cached, emb)
        | none => none
      else none
    | none => none
  | _, _ => none

/-- C4 counterexample (negation of the claim): a cache state whose chunk file
matches the fresh chunk count but whose embedding file holds a different
number of rows is still reported as a hit — `_load_cache` never compares the
embedding row count to the chunk count. -/
theorem c4_counterexample :
    ∃ (ch : List Chunk) (emb : List (List Int)),
      loadCache ⟨some (some [⟨0, "t", "x"⟩]), some (some [])⟩ [⟨0, "t", "x"⟩] =
        some (ch, emb) ∧ emb.length ≠ ch.length :=
  ⟨[⟨0, "t", "x"⟩], [], rfl, by decide⟩

/-- C4 amended: what `_load_cache` actually enforces on a hit is that the
loaded chunk count equals the freshly computed chunk count; the embedding
matrix row count is not checked. -/
theorem c4_load_cache_amended (d : CacheDisk) (fresh cached : List Chunk)
    (emb : List (List Int)) (h : loadCache d fresh = some (cached, emb)) :
    cached.length = fresh.length := by
  rcases d with ⟨cf, ef⟩
  rcases cf with _ | parsed
  · simp [loadCache] at h
  rcases ef with _ | loaded
  · simp [loadCache] at h
  rcases parsed with _ | cl
  · simp [loadCache] at h
  rcases loaded with _ | el
  · simp only [loadCache, ite_self] at h
    exact Option.noConfusion h
  · simp only [loadCache] at h
    split at h
    · rename_i hc
      simp only [Option.some.injEq, Prod.mk.injEq] at h
      rw [← h.1]
      exact hc
    · simp at h

/-- Witness for `c4_load_cache_amended`: a consistent cache hit. -/
theorem c4_witness :
    ([⟨0, "t", "x"⟩] : List Chunk).length = ([⟨0, "t", "x"⟩] : List Chunk).length :=
  c4_load_cache_amended ⟨some (some [⟨0, "t", "x"⟩]), some (some [[1, 2]])⟩
    [⟨0, "t", "x"⟩] [⟨0, "t", "x"⟩] [[1, 2]] rfl

/-! ## Embedding Index retrieval (`query` lines 168–172)

`sims = np.dot(self.embeddings, query_embedding)` scores every chunk,
`pre_indices = np.argsort(sims)[-pre_k:][::-1]` selects the shortlist.
Similarity scores are modelled over `Int`.  `np.argsort` is modelled as the
ascending sort of `(score, index)` pairs with ties ordered by index — the
tie order of NumPy's stable sort kind, which is the reading most favorable
to the spec's stability claim. -/

/-- One row of `np.dot(self.embeddings, query_embedding)`. -/
def dot (a b : List Int) : Int :=
  ((a.zip b).map (fun p => p.1 * p.2)).sum

/-- Ascending comparison on `(score, original index)` pairs. -/
def pairLe (a b : Int × Nat) : Prop :=
  a.1 < b.1 ∨ (a.1 = b.1 ∧ a.2 ≤ b.2)

instance (a b : Int × Nat) : Decidable (pairLe a b) := by
  unfold pairLe
  exact inferInstance

/-- Insertion step of the model sort. -/
def insertPair (x : Int × Nat) : List (Int × Nat) → List (Int × Nat)
  | [] => [x]
  | y :: t => if pairLe x y then x :: y :: t else y :: insertPair x t

/-- Ascending sort of `(score, index)` pairs. -/
def sortPairs : List (Int × Nat) → List (Int × Nat)
  | [] => []
  | x :: t => insertPair x (sortPairs t)

/-- Every index paired with its similarity score. -/
def idxPairs (sims : List Int) : List (Int × Nat) :=
  (List.range sims.length).map (fun i => (sims.getD i 0, i))

/-- `np.argsort(sims)`: chunk indices in ascending score order. -/
def argsort (sims : List Int) : List Nat :=
  (sortPairs (idxPairs sims)).map (fun p => p.2)

/-- `np.argsort(sims)[-pre_k:][::-1]` (Python `a[-k:]` is the whole list when
`k = 0`). -/
def retrieveIdx (sims : List Int) (k : Nat) : List Nat :=
  (if k = 0 then argsort sims else (argsort sims).drop (sims.length - k)).reverse

/-- The retrieval step of `query`: `pre_k = min(len(self.chunks), self.pre_k)`,
then `pre_chunks = [self.chunks[i] for i in pre_indices]`. -/
def retrieve (chunks : List Chunk) (embeddings : List (List Int))
    (qEmb : List Int) (preK : Nat) : List Chunk :=
  let sims := embeddings.map (fun row => dot row qEmb)
  (retrieveIdx sims (min chunks.length preK)).map (fun i => chunks.getD i ⟨0, "", ""⟩)

/-- Written from the spec's words (§4.4): "select the `pre_k` highest-scoring
chunks … in descending score order. Ties broken by original chunk order
(stable sort)" — a stable descending sort, kept for comparison with the code's
`retrieve`. -/
def specPairLe (a b : Int × Nat) : Prop :=
  b.1 < a.1 ∨ (a.1 = b.1 ∧ a.2 ≤ b.2)

instance (a b : Int × Nat) : Decidable (specPairLe a b) := by
  unfold specPairLe
  exact inferInstance

/-- Insertion step of the spec-side stable descending sort. -/
def specInsert (x : Int × Nat) : List (Int × Nat) → List (Int × Nat)
  | [] => [x]
  | y :: t => if specPairLe x y ∧ ¬ specPairLe y x then x :: y :: t else y :: specInsert x t

/-- Spec-side stable descending sort (strictly-greater elements move forward,
equal scores keep their original relative order). -/
def specSort : List (Int × Nat) → List (Int × Nat)
  | [] => []
  | x :: t => specInsert x (specSort t)

/-- Spec-side retrieval: stable descending order, first `min(pre_k, n)`. -/
def retrieveStableSpec (chunks : List Chunk) (embeddings : List (List Int))
    (qEmb : List Int) (preK : Nat) : List Chunk :=
  let sims := embeddings.map (fun row => dot row qEmb)
  (((specSort (idxPairs sims)).map (fun p => p.2)).take (min chunks.length preK)).map
    (fun i => chunks.getD i ⟨0, "", ""⟩)

/-- C3 counterexample: two chunks with identical scores.  The code returns
them in reverse original order (`argsort` ascending, then `[::-1]`), not in
the original order the claim's stable-sort reading demands. -/
theorem c3_counterexample :
    retrieve [⟨0, "a", "x"⟩, ⟨1, "b", "y"⟩] [[1], [1]] [1] 2 =
        [⟨1, "b", "y"⟩, ⟨0, "a", "x"⟩]
    ∧ retrieveStableSpec [⟨0, "a", "x"⟩, ⟨1, "b", "y"⟩] [[1], [1]] [1] 2 =
        [⟨0, "a", "x"⟩, ⟨1, "b", "y"⟩]
    ∧ ([⟨1, "b", "y"⟩, ⟨0, "a", "x"⟩] : List Chunk) ≠ [⟨0, "a", "x"⟩, ⟨1, "b", "y"⟩] := by
  refine ⟨by decide, by decide, by decide⟩

theorem pairLe_total (a b : Int × Nat) : pairLe a b ∨ pairLe b a := by
  unfold pairLe
  omega

theorem pairLe_trans {a b c : Int × Nat} (h1 : pairLe a b) (h2 : pairLe b c) :
    pairLe a c := by
  unfold pairLe at *
  omega

theorem mem_insertPair (x a : Int × Nat) :
    ∀ l, a ∈ insertPair x l ↔ a = x ∨ a ∈ l
  | [] => by simp [insertPair]
  | y :: t => by
    simp only [insertPair]
    split
    · simp [List.mem_cons]
    · simp only [List.mem_cons, mem_insertPair x a t]
      tauto

theorem sorted_insertPair (x : Int × Nat) :
    ∀ {l}, l.Pairwise pairLe → (insertPair x l).Pairwise pairLe := by
  intro l h
  induction l with
  | nil => simp [insertPair]
  | cons y t ih =>
    rw [List.pairwise_cons] at h
    show ((if pairLe x y then x :: y :: t else y :: insertPair x t)).Pairwise pairLe
    split
    · rename_i hxy
      rw [List.pairwise_cons]
      refine ⟨?_, List.pairwise_cons.mpr h⟩
      intro z hz
      rcases List.mem_cons.mp hz with rfl | hz2
      · exact hxy
      · exact pairLe_trans hxy (h.1 z hz2)
    · rename_i hxy
      rw [List.pairwise_cons]
      refine ⟨?_, ih h.2⟩
      intro z hz
      rcases (mem_insertPair x z t).mp hz with rfl | hz2
      · exact (pairLe_total z y).resolve_left hxy
      · exact h.1 z hz2

theorem perm_insertPair (x : Int × Nat) : ∀ l, (insertPair x l).Perm (x :: l)
  | [] => List.Perm.refl _
  | y :: t => by
    simp only [insertPair]
    split
    · exact List.Perm.refl _
    · exact ((perm_insertPair x t).cons y).trans (List.Perm.swap x y t)

theorem perm_sortPairs : ∀ l, (sortPairs l).Perm l
  | [] => List.Perm.refl _
  | x :: t => (perm_insertPair x (sortPairs t)).trans ((perm_sortPairs t).cons x)

theorem sorted_sortPairs : ∀ l, (sortPairs l).Pairwise pairLe
  | [] => List.Pairwise.nil
  | x :: t => sorted_insertPair x (sorted_sortPairs t)

theorem mem_idxPairs {sims : List Int} {p : Int × Nat} (h : p ∈ idxPairs sims) :
    p.1 = sims.getD p.2 0 ∧ p.2 < sims.length := by
  obtain ⟨i, hi, rfl⟩ := List.mem_map.mp h
  exact ⟨rfl, List.mem_range.mp hi⟩

theorem map_snd_idxPairs (sims : List Int) :
    (idxPairs sims).map (fun p => p.2) = List.range sims.length := by
  unfold idxPairs
  rw [List.map_map]
  exact List.map_id _

theorem length_argsort (sims : List Int) : (argsort sims).length = sims.length := by
  unfold argsort
  rw [List.length_map, (perm_sortPairs _).length_eq]
  simp [idxPairs]

theorem nodup_argsort (sims : List Int) : (argsort sims).Nodup := by
  unfold argsort
  have hperm := (perm_sortPairs (idxPairs sims)).map (fun p : Int × Nat => p.2)
  rw [hperm.nodup_iff, map_snd_idxPairs]
  exact List.nodup_range _

/-- C3 amended: retrieval returns exactly `min(pre_k, total chunk count)`
chunks; along the returned index list the similarity scores are
non-increasing; but ties between equal scores come out in *reverse* original
chunk order (the later chunk first), because the code reverses an ascending
`argsort` — the resulting ranking is still deterministic. -/
theorem c3_retrieve_amended (chunks : List Chunk) (embeddings : List (List Int))
    (qEmb : List Int) (preK : Nat)
    (hlen : embeddings.length = chunks.length) (hk : 0 < preK) :
    (retrieve chunks embeddings qEmb preK).length = min preK chunks.length
    ∧ ∀ (sims : List Int) (k : Nat), 0 < k → k ≤ sims.length →
        (retrieveIdx sims k).Pairwise (fun i j =>
          sims.getD j 0 < sims.getD i 0 ∨ (sims.getD j 0 = sims.getD i 0 ∧ j < i)) := by
  constructor
  · unfold retrieve retrieveIdx
    have hsims : (embeddings.map (fun row => dot row qEmb)).length = chunks.length := by
      rw [List.length_map, hlen]
    rw [List.length_map, List.length_reverse]
    split
    · rename_i h0
      rw [length_argsort, hsims]
      omega
    · rename_i h0
      rw [List.length_drop, length_argsort, hsims]
      omega
  · intro sims k hk0 hkn
    unfold retrieveIdx
    rw [if_neg (by omega)]
    rw [List.pairwise_reverse]
    unfold argsort
    rw [← List.map_drop, List.pairwise_map]
    have hsorted := sorted_sortPairs (idxPairs sims)
    have hnodup : ((sortPairs (idxPairs sims)).map (fun p => p.2)).Nodup := by
      have hperm := (perm_sortPairs (idxPairs sims)).map (fun p : Int × Nat => p.2)
      rw [hperm.nodup_iff, map_snd_idxPairs]
      exact List.nodup_range _
    rw [List.Nodup, List.pairwise_map] at hnodup
    have hco := hsorted.and hnodup
    have hdrop := hco.sublist (List.drop_sublist (sims.length - k) _)
    refine hdrop.imp_of_mem ?_
    intro a b ha hb hab
    have ha2 := mem_idxPairs ((perm_sortPairs (idxPairs sims)).subset
      ((List.drop_sublist (sims.length - k) _).subset ha))
    have hb2 := mem_idxPairs ((perm_sortPairs (idxPairs sims)).subset
      ((List.drop_sublist (sims.length - k) _).subset hb))
    rcases hab with ⟨hle, hne⟩
    unfold pairLe at hle
    rw [← ha2.1, ← hb2.1]
    omega

/-- Witness for `c3_retrieve_amended` at a concrete input. -/
theorem c3_witness :
    (retrieve [⟨0, "a", "x"⟩, ⟨1, "b", "y"⟩] [[3], [1]] [1] 5).length = min 5 2
    ∧ ∀ (sims : List Int) (k : Nat), 0 < k → k ≤ sims.length →
        (retrieveIdx sims k).Pairwise (fun i j =>
          sims.getD j 0 < sims.getD i 0 ∨ (sims.getD j 0 = sims.getD i 0 ∧ j < i)) :=
  c3_retrieve_amended [⟨0, "a", "x"⟩, ⟨1, "b", "y"⟩] [[3], [1]] [1] 5 (by decide) (by decide)

/-! ## Answer Extractor: summary assembly (`_build_answer` lines 229–232)

`summary = " ".join(selected_sentences)`, then
`summary = re.sub(r"\s+", " ", summary).strip()`, then
`if len(summary) > 800: summary = summary[:800].rsplit(" ", 1)[0]`. -/

/-- `re.sub(r"\s+", " ", ...)`: collapse every whitespace run to one space.
The `Bool` tracks whether the previous character was part of a run. -/
def collapseWsGo : Bool → List Char → List Char
  | _, [] => []
  | prevSpace, c :: t =>
    if isSpc c then
      if prevSpace then collapseWsGo true t
      else ' ' :: collapseWsGo true t
    else c :: collapseWsGo false t

/-- Whitespace-run collapse. -/
def collapseWs (l : List Char) : List Char :=
  collapseWsGo false l

/-- `s.rsplit(" ", 1)[0]`: everything before the last space; the whole string
when it holds no space. -/
def rsplitDrop (l : List Char) : List Char :=
  if ' ' ∈ l then ((l.reverse.dropWhile (fun c => c != ' ')).tail).reverse else l

/-- The joined, collapsed and stripped summary (`_build_answer` 229–230). -/
def collapsedSummary (sel : List (List Char)) : List Char :=
  stripChars (collapseWs (List.intercalate [' '] sel))

/-- The final summary with the 800-character truncation (`_build_answer`
231–232). -/
def assembleSummary (sel : List (List Char)) : List Char :=
  if 800 < (collapsedSummary sel).length then rsplitDrop ((collapsedSummary sel).take 800)
  else collapsedSummary sel

theorem dropWhile_head_not {p : Char → Bool} :
    ∀ {l : List Char} {c : Char} {t : List Char},
      List.dropWhile p l = c :: t → p c = false := by
  intro l
  induction l with
  | nil => intro c t h; simp [List.dropWhile] at h
  | cons a l2 ih =>
    intro c t h
    rw [List.dropWhile_cons] at h
    split at h
    · exact ih h
    · rename_i hpa
      cases h
      simpa using hpa

theorem rsplitDrop_split {l : List Char} (h : ' ' ∈ l) :
    ∃ t, l = rsplitDrop l ++ ' ' :: t ∧ ' ' ∉ t := by
  rcases hB : l.reverse.dropWhile (fun c => c != ' ') with _ | ⟨c, B⟩
  · exfalso
    have hsplit := List.takeWhile_append_dropWhile (p := fun c => c != ' ') (l := l.reverse)
    rw [hB, List.append_nil] at hsplit
    have hmem : ' ' ∈ l.reverse.takeWhile (fun c => c != ' ') := by
      rw [hsplit]
      exact List.mem_reverse.mpr h
    have := List.mem_takeWhile_imp hmem
    simp at this
  · have hc : c = ' ' := by simpa using dropWhile_head_not hB
    subst hc
    unfold rsplitDrop
    rw [if_pos h, hB]
    have hsplit := List.takeWhile_append_dropWhile (p := fun c => c != ' ') (l := l.reverse)
    rw [hB] at hsplit
    refine ⟨(l.reverse.takeWhile (fun c => c != ' ')).reverse, ?_, ?_⟩
    · conv_lhs => rw [← List.reverse_reverse l, ← hsplit]
      rw [List.reverse_append, List.reverse_cons, List.append_assoc, List.singleton_append]
      rfl
    · intro hmem
      have := List.mem_takeWhile_imp (List.mem_reverse.mp hmem)
      simp at this

theorem length_rsplitDrop (l : List Char) : (rsplitDrop l).length ≤ l.length := by
  by_cases h : ' ' ∈ l
  · obtain ⟨t, ht, _⟩ := rsplitDrop_split h
    have := congrArg List.length ht
    simp at this
    omega
  · unfold rsplitDrop
    rw [if_neg h]

/-- C8 amended: the assembled summary is the kept sentences joined with single
spaces, whitespace-collapsed and stripped; it never exceeds 800 characters;
when the collapsed text fits in 800 characters it is returned whole; when it
is longer and its 800-character prefix contains a space, the cut falls at the
last space of that prefix (never mid-word); but when the prefix contains no
space at all, the raw 800-character prefix is returned and may end mid-word. -/
theorem c8_summary_amended (sel : List (List Char)) :
    (assembleSummary sel).length ≤ 800
    ∧ ((collapsedSummary sel).length ≤ 800 → assembleSummary sel = collapsedSummary sel)
    ∧ (800 < (collapsedSummary sel).length → ' ' ∈ (collapsedSummary sel).take 800 →
        ∃ t, (collapsedSummary sel).take 800 = assembleSummary sel ++ ' ' :: t ∧ ' ' ∉ t)
    ∧ (800 < (collapsedSummary sel).length → ' ' ∉ (collapsedSummary sel).take 800 →
        assembleSummary sel = (collapsedSummary sel).take 800) := by
  refine ⟨?_, ?_, ?_, ?_⟩
  · unfold assembleSummary
    split
    · calc (rsplitDrop ((collapsedSummary sel).take 800)).length
          ≤ ((collapsedSummary sel).take 800).length := length_rsplitDrop _
        _ ≤ 800 := by
            rw [List.length_take]
            omega
    · omega
  · intro hle
    unfold assembleSummary
    rw [if_neg (by omega)]
  · intro hgt hmem
    unfold assembleSummary
    rw [if_pos hgt]
    exact rsplitDrop_split hmem
  · intro hgt hmem
    unfold assembleSummary
    rw [if_pos hgt]
    unfold rsplitDrop
    rw [if_neg hmem]

/-- Witness for `c8_summary_amended` at a concrete sentence list. -/
theorem c8_witness :
    (assembleSummary [['a', 'b'], ['c']]).length ≤ 800
    ∧ assembleSummary [['a', 'b'], ['c']] = collapsedSummary [['a', 'b'], ['c']] :=
  ⟨(c8_summary_amended [['a', 'b'], ['c']]).1,
   (c8_summary_amended [['a', 'b'], ['c']]).2.1 (by decide)⟩

set_option maxRecDepth 100000 in
/-- C8 counterexample (negation of "the summary never ends mid-word"): a
single 801-character sentence with no spaces is truncated to its raw
800-character prefix, which ends in the middle of the only word (the result
is neither the whole collapsed text nor a space-bounded prefix of it). -/
theorem c8_counterexample :
    assembleSummary [List.replicate 801 'a'] = List.replicate 800 'a'
    ∧ collapsedSummary [List.replicate 801 'a'] = List.replicate 801 'a'
    ∧ ¬ (List.replicate 800 'a' = List.replicate 801 'a'
         ∨ ∃ t, List.replicate 801 'a' = List.replicate 800 'a' ++ ' ' :: t) := by
  refine ⟨by decide, by decide, ?_⟩
  intro h
  rcases h with h | ⟨t, ht⟩
  · have := congrArg List.length h
    simp at this
  · have hmem : ' ' ∈ List.replicate 801 'a' := by
      rw [ht]
      exact List.mem_append_right _ (List.mem_cons_self _ _)
    have := List.eq_of_mem_replicate hmem
    exact absurd this (by decide)

/-! ## Answer Extractor: token and sentence machinery (`_build_answer`)

`tokens = [t for t in re.split(r"\W+", question.lower()) if len(t) > 2]`,
sentence split `re.split(r"(?<=[.!?])\s+", text)`, substring matching
`tok in s_clean.lower()`. -/

/-- `str.lower()` on a character list. -/
def toLowerChars (l : List Char) : List Char :=
  l.map Char.toLower

/-- A regex word character (`\w`): alphanumeric or underscore. -/
def isWordChar (c : Char) : Bool :=
  c.isAlphanum || c = '_'

/-- `re.split(r"\W+", s)`: fields between runs of non-word characters
(empty fields at the borders, as the regex produces).  The `Bool` is true
while consuming a separator run. -/
def splitNonWordAux : List Char → Bool → List Char → List (List Char)
  | [], _, acc => [acc.reverse]
  | c :: t, skipping, acc =>
    if isWordChar c then splitNonWordAux t false (c :: acc)
    else if skipping then splitNonWordAux t true acc
    else acc.reverse :: splitNonWordAux t true []

/-- The question tokens of `_build_answer` line 215. -/
def tokenize (q : List Char) : List (List Char) :=
  (splitNonWordAux (toLowerChars q) false []).filter (fun t => 2 < t.length)

/-- A sentence-final punctuation character (`[.!?]`). -/
def isPunct (c : Char) : Bool :=
  c = '.' || c = '!' || c = '?'

/-- `re.split(r"(?<=[.!?])\s+", text)`: cut after `[.!?]` followed by
whitespace, the whitespace run being the consumed separator.  The `Bool` is
true while consuming a separator run. -/
def splitSentAux : List Char → Bool → List Char → List (List Char)
  | [], _, acc => [acc.reverse]
  | c :: t, skipping, acc =>
    if skipping && isSpc c then splitSentAux t true acc
    else
      if isPunct c && (match t with | d :: _ => isSpc d | [] => false) then
        (c :: acc).reverse :: splitSentAux t true []
      else splitSentAux t false (c :: acc)

/-- The sentence split of `_build_answer` line 218. -/
def splitSentences (text : List Char) : List (List Char) :=
  splitSentAux text false []

/-- Python substring containment `pat in hay`. -/
def hasSub : List Char → List Char → Bool
  | [], pat => pat.isEmpty
  | h :: t, pat => pat.isPrefixOf (h :: t) || hasSub t pat

/-- `_build_answer` (lines 212–237): select sentences containing a question
token, fall back to the first two chunk texts, assemble the summary, and
prepend the seed answer (`base_answer`) or the fixed domain introduction. -/
def buildAnswer (question : List Char) (topChunks : List Chunk)
    (baseAnswer : List Char) : List Char :=
  let tokens := tokenize question
  let selected :=
    (topChunks.map (fun c =>
      ((splitSentences c.text.data).map stripChars).filter
        (fun s => s ≠ [] ∧ tokens.any (fun tok => hasSub (toLowerChars s) tok)))).flatten
  let selected2 :=
    if selected = [] then
      ((topChunks.take 2).map (fun c => stripChars c.text.data)).filter (fun s => s ≠ [])
    else selected
  let summary := assembleSummary selected2
  let agree :=
    if baseAnswer ≠ [] then
      if baseAnswer.getLast? = some '.' then baseAnswer ++ ('.' :: [' '])
      else baseAnswer ++ (':' :: [' '])
    else "De acordo com o Programa Farmácia Popular, ".data
  agree ++ summary

/-! ## Query pipeline (`query`, lines 160–210)

The engine's mutable attributes become an `EngineState` record; the external
models become the function-valued fields of a `ModelEnv` record, every
fallible call returning `Except String` (`.error` = the Python call raised). -/

/-- The `{"answer": ..., "source": ...}` record `query` returns. -/
structure QueryResult where
  answer : String
  source : String
deriving DecidableEq, Repr

/-- The external collaborators of the engine, as fallible calls:
document loading, the sentence-transformer (load / corpus encode / query
encode), the QA pipeline (load / call returning answer and confidence), the
cross-encoder reranker (load / pair scoring), the cache files on disk, and
the `os.stat` results of the corpus files. -/
structure ModelEnv where
  loadDocs : Except String (List Document)
  loadEmbedModel : Except String Unit
  encodeChunks : List String → Except String (List (List Int))
  encodeQuery : String → Except String (List Int)
  loadQA : Except String Unit
  qaCall : String → String → Except String (String × Rat)
  loadReranker : Except String Unit
  rerankScores : String → List String → Except String (List Int)
  disk : CacheDisk
  fileStats : List FileStat

/-- The mutable attributes of `RAGEngine` set in `__init__`/`initialize`. -/
structure EngineState where
  documents : List Document := []
  chunks : List Chunk := []
  embeddings : List (List Int) := []
  fingerprint : Option (List Char) := none
  modelLoaded : Bool := false
  qaLoaded : Bool := false
  rerankerLoaded : Bool := false
  initialized : Bool := false

/-- `dict.fromkeys(sources)`: first-occurrence-preserving deduplication. -/
def dedupFirstGo (seen : List String) : List String → List String
  | [] => []
  | x :: t => if x ∈ seen then dedupFirstGo seen t else x :: dedupFirstGo (x :: seen) t

/-- `", ".join(dict.fromkeys(sources))` without the join. -/
def dedupFirst (l : List String) : List String :=
  dedupFirstGo [] l

/-- Insertion step of Python's stable descending `sorted(..., key=score,
reverse=True)` on `(chunk, score)` pairs. -/
def rrInsert (x : Chunk × Int) : List (Chunk × Int) → List (Chunk × Int)
  | [] => [x]
  | y :: t => if y.2 ≤ x.2 then x :: y :: t else y :: rrInsert x t

/-- Stable descending sort by score. -/
def rrSort : List (Chunk × Int) → List (Chunk × Int)
  | [] => []
  | x :: t => rrInsert x (rrSort t)

/-- The reranking block of `query` (lines 174–184): score the pre-shortlist
pairs, sort descending, keep `top_k`; on a missing reranker or a raised
scoring call, the first `top_k` of the pre-shortlist unchanged. -/
def rerankStage (cfg : RAGConfig) (env : ModelEnv) (st : EngineState)
    (question : String) (preChunks : List Chunk) : List Chunk :=
  if st.rerankerLoaded then
    match env.rerankScores question (preChunks.map (fun c => c.text)) with
    | .ok scores => ((rrSort (preChunks.zip scores)).take cfg.top_k).map (fun p => p.1)
    | .error _ => preChunks.take cfg.top_k
  else preChunks.take cfg.top_k

/-- The answer-extraction block of `query` (lines 185–205): QA with
confidence gating, the short-answer enrichment, and the extractive fallback. -/
def extractStage (env : ModelEnv) (st : EngineState)
    (question : String) (topChunks : List Chunk) : QueryResult :=
  let context := String.intercalate "\n\n" (topChunks.map (fun c => c.text))
  let sources := String.intercalate ", " (dedupFirst (topChunks.map (fun c => c.title)))
  let fallback : QueryResult := ⟨⟨buildAnswer question.data topChunks []⟩, sources⟩
  if st.qaLoaded then
    match env.qaCall question context with
    | .ok (ans, score) =>
      let answer := stripChars ans.data
      if answer ≠ [] ∧ (15 : Rat) / 100 ≤ score then
        if answer.length < 40 then ⟨⟨buildAnswer question.data topChunks answer⟩, sources⟩
        else ⟨⟨answer⟩, sources⟩
      else fallback
    | .error _ => fallback
  else fallback

/-- The body of `query`'s `try` block. -/
def queryBody (cfg : RAGConfig) (env : ModelEnv) (st : EngineState)
    (question : String) : Except String QueryResult :=
  if st.chunks = [] then .ok ⟨"Nenhum conteúdo disponível na base.", "Sistema"⟩
  else
    match env.encodeQuery question with
    | .error e => .error e
    | .ok qEmb =>
      let preChunks := retrieve st.chunks st.embeddings qEmb cfg.pre_k
      let topChunks := rerankStage cfg env st question preChunks
      .ok (extractStage env st question topChunks)

/-- `query` (lines 160–210): the initialization guard, the `try` body, and
the outermost catch converting any raised exception into a system answer. -/
def queryEngine (cfg : RAGConfig) (env : ModelEnv) (st : EngineState)
    (question : String) : QueryResult :=
  if st.initialized = false then ⟨"Sistema RAG não inicializado.", "Sistema"⟩
  else
    match queryBody cfg env st question with
    | .ok r => r
    | .error e => ⟨"Erro ao processar: " ++ e, "Sistema"⟩

/-! ## Engine Orchestrator: `initialize` (lines 33–69)

`initialize` runs load-documents, chunking, cache-dir creation (a no-op in
the embedding: its failures are caught locally), fingerprint, embedding-model
load, cache load-or-encode(+save), then the QA and reranker loads (each with
its own local `try`), and only then sets `initialized = True`; the outer
`except` forces `initialized = False`.  The chunker can diverge (claim C1),
so the embedded `initialize` returns `Option`: `none` is divergence —
distinct from an exception, which the outer `except` catches. -/

/-- `Option`-valued `mapM` with explicit structure (for easy reasoning). -/
def optMapM (f : List Char → Option (List (List Char))) :
    List (List Char) → Option (List (List (List Char)))
  | [] => some []
  | a :: t =>
    match f a, optMapM f t with
    | some b, some bs => some (b :: bs)
    | _, _ => none

/-- Combine per-document chunk lists, propagating divergence. -/
def appendOpt {α : Type} (o acc : Option (List α)) : Option (List α) :=
  match o, acc with
  | some a, some b => some (a ++ b)
  | _, _ => none

/-- `_chunk_documents`: every document's content split into paragraphs, each
paragraph chunked (fuel `len(para)+1`, enough whenever the window loop
terminates at all), chunk ids assigned densely in document-then-position
order.  `none` = some window loop diverges. -/
def chunkDocuments (cfg : RAGConfig) (docs : List Document) : Option (List Chunk) :=
  match (docs.map (fun doc =>
      match optMapM
        (fun para => chunkPara cfg.chunk_chars cfg.chunk_overlap para (para.length + 1))
        (paragraphsOf doc.content) with
      | some texts => some (texts.flatten.map (fun t => (doc.title, t)))
      | none => none)).foldr appendOpt (some []) with
  | some pairs => some (pairs.enum.map (fun q => ⟨q.1, q.2.1, ⟨q.2.2⟩⟩))
  | none => none

/-- The tail of `initialize` once embeddings are in place: the QA and the
reranker loads are each caught locally (`self.qa = None` / `self.reranker =
None` on failure), then `initialized = True`. -/
def finishInit (env : ModelEnv) (st : EngineState) : EngineState :=
  { st with
    qaLoaded := match env.loadQA with | .ok _ => true | .error _ => false,
    rerankerLoaded := match env.loadReranker with | .ok _ => true | .error _ => false,
    initialized := true }

/-- `initialize`: `some st` = the method returned (normally or through its
`except` branch), `none` = `_chunk_documents` diverged. -/
def initializeEngine (cfg : RAGConfig) (env : ModelEnv) (st : EngineState) :
    Option EngineState :=
  match env.loadDocs with
  | .error _ => some { st with initialized := false }
  | .ok docs =>
    match chunkDocuments cfg docs with
    | none => none
    | some chunks =>
      let st3 := { st with
        documents := docs, chunks := chunks,
        fingerprint := some (computeFingerprint cfg env.fileStats) }
      match env.loadEmbedModel with
      | .error _ => some { st3 with initialized := false }
      | .ok _ =>
        let st4 := { st3 with modelLoaded := true }
        match loadCache env.disk chunks with
        | some (cached, embs) =>
          some (finishInit env { st4 with chunks := cached, embeddings := embs })
        | none =>
          match env.encodeChunks (chunks.map (fun c => c.text)) with
          | .error _ => some { st4 with initialized := false }
          | .ok embs => some (finishInit env { st4 with embeddings := embs })

theorem chunkParaGo_some {cc co : Nat} (hcc : 0 < cc) (hco : co < cc)
    (para : List Char) :
    ∀ fuel start, para.length - start < fuel →
      ∃ out, chunkParaGo cc co para fuel start = some out := by
  intro fuel
  induction fuel with
  | zero => intro start h; omega
  | succ n ih =>
    intro start h
    unfold chunkParaGo
    by_cases hs : start < para.length
    · rw [if_pos hs]
      by_cases he : min para.length (start + cc) = para.length
      · rw [if_pos he]
        exact ⟨_, rfl⟩
      · rw [if_neg he]
        have hlt : start + cc < para.length := by
          by_contra hge
          push_neg at hge
          exact he (Nat.min_eq_left hge)
        have hmin : min para.length (start + cc) = start + cc :=
          Nat.min_eq_right (le_of_lt hlt)
        rw [hmin]
        obtain ⟨out, hout⟩ := ih (start + cc - co) (by omega)
        rw [hout]
        exact ⟨_, rfl⟩
    · rw [if_neg hs]
      exact ⟨_, rfl⟩

theorem chunkPara_some {cc co : Nat} (hco : co < cc) (para : List Char) :
    ∃ out, chunkPara cc co para (para.length + 1) = some out := by
  unfold chunkPara
  by_cases h : para.length ≤ cc
  · rw [if_pos h]
    exact ⟨_, rfl⟩
  · rw [if_neg h]
    exact chunkParaGo_some (by omega) hco para (para.length + 1) 0 (by omega)

theorem optMapM_some (f : List Char → Option (List (List Char))) :
    ∀ l : List (List Char), (∀ a ∈ l, ∃ b, f a = some b) →
      ∃ bs, optMapM f l = some bs := by
  intro l
  induction l with
  | nil => intro _; exact ⟨[], rfl⟩
  | cons a t ih =>
    intro h
    obtain ⟨b, hb⟩ := h a (List.mem_cons_self a t)
    obtain ⟨bs, hbs⟩ := ih (fun x hx => h x (List.mem_cons_of_mem a hx))
    refine ⟨b :: bs, ?_⟩
    unfold optMapM
    rw [hb, hbs]

theorem foldr_appendOpt_some {α : Type} : ∀ l : List (Option (List α)),
    (∀ o ∈ l, ∃ x, o = some x) →
    ∃ y, l.foldr appendOpt (some []) = some y := by
  intro l
  induction l with
  | nil => intro _; exact ⟨[], rfl⟩
  | cons o t ih =>
    intro h
    obtain ⟨x, hx⟩ := h o (List.mem_cons_self o t)
    obtain ⟨y, hy⟩ := ih (fun a ha => h a (List.mem_cons_of_mem o ha))
    subst hx
    refine ⟨x ++ y, ?_⟩
    rw [List.foldr_cons, hy]
    rfl

theorem chunkDocuments_some (cfg : RAGConfig) (docs : List Document)
    (hco : cfg.chunk_overlap < cfg.chunk_chars) :
    ∃ chunks, chunkDocuments cfg docs = some chunks := by
  unfold chunkDocuments
  have hall : ∀ o ∈ docs.map (fun doc =>
      match optMapM
        (fun para => chunkPara cfg.chunk_chars cfg.chunk_overlap para (para.length + 1))
        (paragraphsOf doc.content) with
      | some texts => some (texts.flatten.map (fun t => (doc.title, t)))
      | none => none), ∃ x, o = some x := by
    intro o ho
    obtain ⟨doc, _, rfl⟩ := List.mem_map.mp ho
    obtain ⟨texts, htexts⟩ := optMapM_some _ (paragraphsOf doc.content)
      (fun para _ => chunkPara_some hco para)
    rw [htexts]
    exact ⟨_, rfl⟩
  obtain ⟨pairs, hpairs⟩ := foldr_appendOpt_some _ hall
  rw [hpairs]
  exact ⟨_, rfl⟩

/-- C9: the `initialized` flag of the state `initialize` leaves behind is
true exactly when every required step succeeded: documents loaded, chunks
built (the hypothesis `initializeEngine ... = some st'` is chunking
termination), the embedding model loaded, and embeddings obtained from the
cache or computed; any step raising before the final flag assignment leaves
`initialized = false` (the fingerprint step is pure and cannot fail, and the
QA/reranker loads are caught locally, so they do not gate the flag). -/
theorem c9_initialized_flag (cfg : RAGConfig) (env : ModelEnv) (st st' : EngineState)
    (h : initializeEngine cfg env st = some st') :
    st'.initialized = true ↔
      ∃ docs chunks, env.loadDocs = .ok docs ∧ chunkDocuments cfg docs = some chunks ∧
        env.loadEmbedModel = .ok () ∧
        ((loadCache env.disk chunks).isSome = true ∨
          ∃ embs, env.encodeChunks (chunks.map (fun c => c.text)) = .ok embs) := by
  unfold initializeEngine at h
  rcases hdocs : env.loadDocs with e | docs
  all_goals rw [hdocs] at h
  all_goals dsimp only at h
  · simp only [Option.some.injEq] at h
    subst h
    simp [hdocs]
  · rcases hchunks : chunkDocuments cfg docs with _ | chunks
    all_goals rw [hchunks] at h
    all_goals dsimp only at h
    · exact Option.noConfusion h
    · rcases hmod : env.loadEmbedModel with e | u
      all_goals rw [hmod] at h
      all_goals dsimp only at h
      · simp only [Option.some.injEq] at h
        subst h
        simp [hdocs, hchunks, hmod]
      · rcases hcache : loadCache env.disk chunks with _ | p
        all_goals rw [hcache] at h
        all_goals dsimp only at h
        · rcases henc : env.encodeChunks (chunks.map (fun c => c.text)) with e2 | embs
          all_goals rw [henc] at h
          all_goals dsimp only at h
          · simp only [Option.some.injEq] at h
            subst h
            simp [hdocs, hchunks, hmod, hcache, henc]
          · simp only [Option.some.injEq] at h
            subst h
            simp [finishInit, hdocs, hchunks, hmod, hcache, henc]
        · rcases p with ⟨cached, embs⟩
          simp only [Option.some.injEq] at h
          subst h
          simp [finishInit, hdocs, hchunks, hmod, hcache]

/-- A concrete happy-path environment for the witnesses. -/
def envEx1 : ModelEnv :=
  { loadDocs := .ok [⟨"doc.txt", "Um conteudo."⟩],
    loadEmbedModel := .ok (),
    encodeChunks := fun _ => .ok [[1]],
    encodeQuery := fun _ => .ok [1],
    loadQA := .ok (),
    qaCall := fun _ _ => .ok ("resposta", 1 / 2),
    loadReranker := .error "sem reranker",
    rerankScores := fun _ _ => .error "falha",
    disk := ⟨none, none⟩,
    fileStats := [] }

/-- The state `initialize` produces from `envEx1` on a fresh engine. -/
def stEx1 : EngineState :=
  { documents := [⟨"doc.txt", "Um conteudo."⟩],
    chunks := [⟨0, "doc.txt", "Um conteudo."⟩],
    embeddings := [[1]],
    fingerprint := some (computeFingerprint {} []),
    modelLoaded := true,
    qaLoaded := true,
    rerankerLoaded := false,
    initialized := true }

/-- Witness for `c9_initialized_flag`: the happy path. -/
theorem c9_witness :
    stEx1.initialized = true ↔
      ∃ docs chunks, envEx1.loadDocs = .ok docs ∧ chunkDocuments {} docs = some chunks ∧
        envEx1.loadEmbedModel = .ok () ∧
        ((loadCache envEx1.disk chunks).isSome = true ∨
          ∃ embs, envEx1.encodeChunks (chunks.map (fun c => c.text)) = .ok embs) :=
  c9_initialized_flag {} envEx1 {} stEx1 rfl

/-- C10: `initialize` itself never propagates an exception: whenever the
chunker terminates (`chunk_overlap < chunk_chars`) it returns a state — every
step failure is absorbed — and a document-load or embedding-model failure is
observable only through `initialized = false`. -/
theorem c10_initialize_total (cfg : RAGConfig) (env : ModelEnv) (st : EngineState)
    (hco : cfg.chunk_overlap < cfg.chunk_chars) :
    ∃ st', initializeEngine cfg env st = some st'
      ∧ (∀ e, env.loadDocs = .error e → st'.initialized = false)
      ∧ (∀ e, env.loadEmbedModel = .error e → st'.initialized = false) := by
  unfold initializeEngine
  rcases hdocs : env.loadDocs with e | docs
  all_goals dsimp only
  · exact ⟨_, rfl, fun _ _ => rfl, fun _ _ => rfl⟩
  · obtain ⟨chunks, hchunks⟩ := chunkDocuments_some cfg docs hco
    rw [hchunks]
    dsimp only
    rcases hmod : env.loadEmbedModel with e2 | u
    all_goals dsimp only
    · exact ⟨_, rfl, fun _ h => Except.noConfusion h, fun _ _ => rfl⟩
    · rcases hcache : loadCache env.disk chunks with _ | p
      all_goals dsimp only
      · generalize env.encodeChunks (chunks.map (fun c => c.text)) = r
        rcases r with e3 | embs
        all_goals dsimp only
        · exact ⟨_, rfl, fun _ h => Except.noConfusion h, fun _ h => Except.noConfusion h⟩
        · exact ⟨_, rfl, fun _ h => Except.noConfusion h, fun _ h => Except.noConfusion h⟩
      · rcases p with ⟨cached, embs⟩
        exact ⟨_, rfl, fun _ h => Except.noConfusion h, fun _ h => Except.noConfusion h⟩

/-- Witness for `c10_initialize_total` on the default configuration. -/
theorem c10_witness :
    ∃ st', initializeEngine {} envEx1 {} = some st'
      ∧ (∀ e, envEx1.loadDocs = .error e → st'.initialized = false)
      ∧ (∀ e, envEx1.loadEmbedModel = .error e → st'.initialized = false) :=
  c10_initialize_total {} envEx1 {} (by decide)

/-- C2: `query` is total and guarded.  When the engine is not initialized it
returns the fixed system message, and the result does not depend on any model
in the environment (the pipeline is not consulted); the same holds for an
empty chunk list; and any exception raised inside the retrieval / rerank /
extract body is caught and converted into the system-source error answer —
no exception ever reaches the caller. -/
theorem c2_query_total_and_guarded :
    (∀ (cfg : RAGConfig) (env env2 : ModelEnv) (st : EngineState) (q : String),
        st.initialized = false →
        queryEngine cfg env st q = ⟨"Sistema RAG não inicializado.", "Sistema"⟩
        ∧ queryEngine cfg env st q = queryEngine cfg env2 st q)
    ∧ (∀ (cfg : RAGConfig) (env env2 : ModelEnv) (st : EngineState) (q : String),
        st.initialized = true → st.chunks = [] →
        queryEngine cfg env st q = ⟨"Nenhum conteúdo disponível na base.", "Sistema"⟩
        ∧ queryEngine cfg env st q = queryEngine cfg env2 st q)
    ∧ (∀ (cfg : RAGConfig) (env : ModelEnv) (st : EngineState) (q e : String),
        st.initialized = true → queryBody cfg env st q = .error e →
        queryEngine cfg env st q = ⟨"Erro ao processar: " ++ e, "Sistema"⟩) := by
  refine ⟨?_, ?_, ?_⟩
  · intro cfg env env2 st q h
    constructor <;> simp [queryEngine, h]
  · intro cfg env env2 st q h1 h2
    constructor <;> simp [queryEngine, queryBody, h1, h2]
  · intro cfg env st q e h1 h2
    simp [queryEngine, h1, h2]

/-- An environment whose query-time encoding raises. -/
def envEncFail : ModelEnv :=
  { envEx1 with encodeQuery := fun _ => .error "encode falhou" }

/-- A ready engine state with one chunk. -/
def stReady : EngineState :=
  { documents := [⟨"doc.txt", "Um conteudo."⟩],
    chunks := [⟨0, "doc.txt", "Um conteudo."⟩],
    embeddings := [[1]],
    fingerprint := none,
    modelLoaded := true,
    qaLoaded := false,
    rerankerLoaded := false,
    initialized := true }

/-- Witness for `c2_query_total_and_guarded` at concrete states. -/
theorem c2_witness :
    (queryEngine {} envEx1 {} "q" = ⟨"Sistema RAG não inicializado.", "Sistema"⟩
      ∧ queryEngine {} envEx1 {} "q" = queryEngine {} envEncFail {} "q")
    ∧ (queryEngine {} envEx1 { initialized := true } "q" =
        ⟨"Nenhum conteúdo disponível na base.", "Sistema"⟩
      ∧ queryEngine {} envEx1 { initialized := true } "q" =
        queryEngine {} envEncFail { initialized := true } "q")
    ∧ queryEngine {} envEncFail stReady "q" =
        ⟨"Erro ao processar: " ++ "encode falhou", "Sistema"⟩ :=
  ⟨c2_query_total_and_guarded.1 {} envEx1 envEncFail {} "q" rfl,
   c2_query_total_and_guarded.2.1 {} envEx1 envEncFail { initialized := true } "q" rfl rfl,
   c2_query_total_and_guarded.2.2 {} envEncFail stReady "q" "encode falhou" rfl rfl⟩

/-- C5: the QA confidence gate of `query` (lines 189–201).  Given the QA
scorer's output: a confidence below 0.15 always falls through to the
extractive fallback (the candidate is never returned); an accepted candidate
(trimmed non-empty, confidence ≥ 0.15) shorter than 40 characters is enriched
through `_build_answer` with the candidate as seed; an accepted candidate of
40 characters or more is returned verbatim; an empty trimmed candidate falls
through to the fallback. -/
theorem c5_qa_gating (env : ModelEnv) (st : EngineState) (q : String)
    (tops : List Chunk) (ans : String) (score : Rat)
    (hqa : st.qaLoaded = true)
    (hcall : env.qaCall q (String.intercalate "\n\n" (tops.map (fun c => c.text))) =
      .ok (ans, score)) :
    (score < (15 : Rat) / 100 → extractStage env st q tops =
        ⟨⟨buildAnswer q.data tops []⟩,
         String.intercalate ", " (dedupFirst (tops.map (fun c => c.title)))⟩)
    ∧ (stripChars ans.data = [] → extractStage env st q tops =
        ⟨⟨buildAnswer q.data tops []⟩,
         String.intercalate ", " (dedupFirst (tops.map (fun c => c.title)))⟩)
    ∧ (stripChars ans.data ≠ [] → (15 : Rat) / 100 ≤ score →
        (stripChars ans.data).length < 40 →
        extractStage env st q tops =
          ⟨⟨buildAnswer q.data tops (stripChars ans.data)⟩,
           String.intercalate ", " (dedupFirst (tops.map (fun c => c.title)))⟩)
    ∧ (stripChars ans.data ≠ [] → (15 : Rat) / 100 ≤ score →
        40 ≤ (stripChars ans.data).length →
        extractStage env st q tops =
          ⟨⟨stripChars ans.data⟩,
           String.intercalate ", " (dedupFirst (tops.map (fun c => c.title)))⟩) := by
  refine ⟨?_, ?_, ?_, ?_⟩
  · intro hlt
    simp only [extractStage, hqa, hcall]
    rw [if_pos trivial, if_neg]
    intro hand
    exact absurd hand.2 (not_le.mpr hlt)
  · intro hempty
    simp only [extractStage, hqa, hcall]
    rw [if_pos trivial, if_neg]
    intro hand
    exact hand.1 hempty
  · intro hne hle hlen
    simp only [extractStage, hqa, hcall]
    rw [if_pos trivial, if_pos ⟨hne, hle⟩, if_pos hlen]
  · intro hne hle hlen
    simp only [extractStage, hqa, hcall]
    rw [if_pos trivial, if_pos ⟨hne, hle⟩, if_neg (not_lt.mpr hlen)]

/-- A QA-enabled ready state. -/
def stQa : EngineState :=
  { stReady with qaLoaded := true }

/-- QA returning a confident long answer. -/
def envQaLong : ModelEnv :=
  { envEx1 with qaCall := fun _ _ => Except.ok ("Uma resposta com mais de quarenta caracteres no total.", 1 / 2) }

/-- QA returning a confident short answer. -/
def envQaShort : ModelEnv :=
  { envEx1 with qaCall := fun _ _ => .ok ("curta", 1 / 2) }

/-- QA returning a low-confidence answer (score 0.10 < 0.15). -/
def envQaLow : ModelEnv :=
  { envEx1 with qaCall := fun _ _ => .ok ("resposta", 1 / 10) }

/-- QA returning a whitespace-only answer. -/
def envQaEmpty : ModelEnv :=
  { envEx1 with qaCall := fun _ _ => .ok ("  ", 1 / 2) }

theorem tenth_lt_threshold : (1 : Rat) / 10 < 15 / 100 := by norm_num

theorem threshold_le_half : (15 : Rat) / 100 ≤ 1 / 2 := by norm_num

/-- Witness for `c5_qa_gating`: all four gate outcomes at concrete inputs. -/
theorem c5_witness :
    (extractStage envQaLow stQa "q" stQa.chunks =
      ⟨⟨buildAnswer "q".data stQa.chunks []⟩,
       String.intercalate ", " (dedupFirst (stQa.chunks.map (fun c => c.title)))⟩)
    ∧ (extractStage envQaEmpty stQa "q" stQa.chunks =
      ⟨⟨buildAnswer "q".data stQa.chunks []⟩,
       String.intercalate ", " (dedupFirst (stQa.chunks.map (fun c => c.title)))⟩)
    ∧ (extractStage envQaShort stQa "q" stQa.chunks =
      ⟨⟨buildAnswer "q".data stQa.chunks (stripChars "curta".data)⟩,
       String.intercalate ", " (dedupFirst (stQa.chunks.map (fun c => c.title)))⟩)
    ∧ (extractStage envQaLong stQa "q" stQa.chunks =
      ⟨⟨stripChars "Uma resposta com mais de quarenta caracteres no total.".data⟩,
       String.intercalate ", " (dedupFirst (stQa.chunks.map (fun c => c.title)))⟩) :=
  ⟨(c5_qa_gating envQaLow stQa "q" stQa.chunks "resposta" (1 / 10) rfl rfl).1
     tenth_lt_threshold,
   (c5_qa_gating envQaEmpty stQa "q" stQa.chunks "  " (1 / 2) rfl rfl).2.1 (by decide),
   (c5_qa_gating envQaShort stQa "q" stQa.chunks "curta" (1 / 2) rfl rfl).2.2.1
     (by decide) threshold_le_half (by decide),
   (c5_qa_gating envQaLong stQa "q" stQa.chunks
       "Uma resposta com mais de quarenta caracteres no total." (1 / 2) rfl rfl).2.2.2
     (by decide) threshold_le_half (by decide)⟩

/-- Reranking degrades to the first `top_k` of the pre-shortlist when the
reranker is absent or its scoring raises. -/
theorem rerankStage_degraded (cfg : RAGConfig) (env : ModelEnv) (st : EngineState)
    (q : String) (pre : List Chunk)
    (h : st.rerankerLoaded = false ∨
      ∃ e, env.rerankScores q (pre.map (fun c => c.text)) = .error e) :
    rerankStage cfg env st q pre = pre.take cfg.top_k := by
  unfold rerankStage
  rcases h with h | ⟨e, he⟩
  · rw [h]
    simp
  · rcases hr : st.rerankerLoaded with _ | _
    · simp
    · rw [he]
      simp

/-- C6: whenever the reranker is absent or its scoring raises, `query`
degrades gracefully: the top chunks are the first `top_k` of the
pre-shortlist in unchanged order, and the query still completes through the
extraction stage with a well-formed `{answer, source}` — no reranking
exception escapes or aborts the query. -/
theorem c6_rerank_degradation :
    (∀ (cfg : RAGConfig) (env : ModelEnv) (st : EngineState) (q : String)
        (pre : List Chunk),
        (st.rerankerLoaded = false ∨
          ∃ e, env.rerankScores q (pre.map (fun c => c.text)) = .error e) →
        rerankStage cfg env st q pre = pre.take cfg.top_k)
    ∧ (∀ (cfg : RAGConfig) (env : ModelEnv) (st : EngineState) (q : String)
        (qe : List Int),
        st.initialized = true → st.chunks ≠ [] → env.encodeQuery q = .ok qe →
        (st.rerankerLoaded = false ∨
          ∃ e, env.rerankScores q
            ((retrieve st.chunks st.embeddings qe cfg.pre_k).map (fun c => c.text)) =
            .error e) →
        queryEngine cfg env st q =
          extractStage env st q
            ((retrieve st.chunks st.embeddings qe cfg.pre_k).take cfg.top_k)) := by
  constructor
  · exact rerankStage_degraded
  · intro cfg env st q qe h1 h2 henc hdeg
    have hstage := rerankStage_degraded cfg env st q
      (retrieve st.chunks st.embeddings qe cfg.pre_k) hdeg
    simp only [queryEngine, queryBody, h1, h2, henc, hstage]
    simp

/-- An environment whose reranker scoring always raises. -/
def envRrFail : ModelEnv :=
  { envEx1 with loadReranker := .ok (), rerankScores := fun _ _ => .error "rerank caiu" }

/-- A ready state that believes the reranker is loaded. -/
def stRr : EngineState :=
  { stReady with rerankerLoaded := true }

/-- Witness for `c6_rerank_degradation`: a reranker that raises on every
call, on a ready one-chunk engine. -/
theorem c6_witness :
    rerankStage {} envRrFail stRr "q" stRr.chunks = stRr.chunks.take (5 : Nat)
    ∧ queryEngine {} envRrFail stRr "q" =
        extractStage envRrFail stRr "q"
          ((retrieve stRr.chunks stRr.embeddings [1] ({} : RAGConfig).pre_k).take
            ({} : RAGConfig).top_k) :=
  ⟨c6_rerank_degradation.1 {} envRrFail stRr "q" stRr.chunks
      (Or.inr ⟨"rerank caiu", rfl⟩),
   c6_rerank_degradation.2 {} envRrFail stRr "q" [1] rfl (by decide) rfl
      (Or.inr ⟨"rerank caiu", rfl⟩)⟩

end RagFarmacia
